import Mathlib

/-!
Verification of the FibRust computation core against its specification.

The development shallowly embeds the Rust sources of the `fibrust-core`
crate: arbitrary-precision unsigned integers (`ibig::UBig`, the `FibNumber`
type) are modelled by `Nat`, with unsigned big-integer subtraction modelled
by truncated `Nat` subtraction, and fixed-width machine integers (`u64`,
`u128`) modelled by `Nat` together with explicit reduction modulo `2 ^ 64`
or `2 ^ 128` at the operations where overflow could matter.  The
mathematical Fibonacci function is `Nat.fib`.
-/

/-- Modulus of the `u128` machine integer type. -/
def U128_MOD : Nat := 2 ^ 128

/-- Modulus of the `u64` machine integer type. -/
def U64_MOD : Nat := 2 ^ 64

/-! ### Configuration constants (`config.rs`) -/

/-- `config::thresholds::PARALLEL_CROSSOVER`. -/
def PARALLEL_CROSSOVER : Nat := 40000

/-- `config::thresholds::FFT_CROSSOVER`. -/
def FFT_CROSSOVER : Nat := 200000

/-- `config::thresholds::FFT_BIT_THRESHOLD`. -/
def FFT_BIT_THRESHOLD : Nat := 50000

/-- `config::limits::MAX_SAFE_N`. -/
def MAX_SAFE_N : Nat := 1000000000000

/-- `config::limits::SAFE_MEMORY_BYTES` (8 GiB). -/
def SAFE_MEMORY_BYTES : Nat := 8 * 1024 * 1024 * 1024

/-- `config::fft::BASE_BITS_DEFAULT`. -/
def BASE_BITS_DEFAULT : Nat := 13

/-- `config::fft::BASE_BITS_MASSIVE`. -/
def BASE_BITS_MASSIVE : Nat := 12

/-- `config::fft::MASSIVE_THRESHOLD`. -/
def MASSIVE_THRESHOLD : Nat := 100000000

/-! ### Fast doubling (`algo/fast_doubling.rs`) -/

/-- `FIB_U128_LOOKUP` (`algo/fast_doubling.rs` lines 45-233): precomputed
table of `F(0) .. F(186)` as `u128` values. -/
def FIB_U128_LOOKUP : List Nat := [
  0,
  1,
  1,
  2,
  3,
  5,
  8,
  13,
  21,
  34,
  55,
  89,
  144,
  233,
  377,
  610,
  987,
  1597,
  2584,
  4181,
  6765,
  10946,
  17711,
  28657,
  46368,
  75025,
  121393,
  196418,
  317811,
  514229,
  832040,
  1346269,
  2178309,
  3524578,
  5702887,
  9227465,
  14930352,
  24157817,
  39088169,
  63245986,
  102334155,
  165580141,
  267914296,
  433494437,
  701408733,
  1134903170,
  1836311903,
  2971215073,
  4807526976,
  7778742049,
  12586269025,
  20365011074,
  32951280099,
  53316291173,
  86267571272,
  139583862445,
  225851433717,
  365435296162,
  591286729879,
  956722026041,
  1548008755920,
  2504730781961,
  4052739537881,
  6557470319842,
  10610209857723,
  17167680177565,
  27777890035288,
  44945570212853,
  72723460248141,
  117669030460994,
  190392490709135,
  308061521170129,
  498454011879264,
  806515533049393,
  1304969544928657,
  2111485077978050,
  3416454622906707,
  5527939700884757,
  8944394323791464,
  14472334024676221,
  23416728348467685,
  37889062373143906,
  61305790721611591,
  99194853094755497,
  160500643816367088,
  259695496911122585,
  420196140727489673,
  679891637638612258,
  1100087778366101931,
  1779979416004714189,
  2880067194370816120,
  4660046610375530309,
  7540113804746346429,
  12200160415121876738,
  19740274219868223167,
  31940434634990099905,
  51680708854858323072,
  83621143489848422977,
  135301852344706746049,
  218922995834555169026,
  354224848179261915075,
  573147844013817084101,
  927372692193078999176,
  1500520536206896083277,
  2427893228399975082453,
  3928413764606871165730,
  6356306993006846248183,
  10284720757613717413913,
  16641027750620563662096,
  26925748508234281076009,
  43566776258854844738105,
  70492524767089125814114,
  114059301025943970552219,
  184551825793033096366333,
  298611126818977066918552,
  483162952612010163284885,
  781774079430987230203437,
  1264937032042997393488322,
  2046711111473984623691759,
  3311648143516982017180081,
  5358359254990966640871840,
  8670007398507948658051921,
  14028366653498915298923761,
  22698374052006863956975682,
  36726740705505779255899443,
  59425114757512643212875125,
  96151855463018422468774568,
  155576970220531065681649693,
  251728825683549488150424261,
  407305795904080553832073954,
  659034621587630041982498215,
  1066340417491710595814572169,
  1725375039079340637797070384,
  2791715456571051233611642553,
  4517090495650391871408712937,
  7308805952221443105020355490,
  11825896447871834976429068427,
  19134702400093278081449423917,
  30960598847965113057878492344,
  50095301248058391139327916261,
  81055900096023504197206408605,
  131151201344081895336534324866,
  212207101440105399533740733471,
  343358302784187294870275058337,
  555565404224292694404015791808,
  898923707008479989274290850145,
  1454489111232772683678306641953,
  2353412818241252672952597492098,
  3807901929474025356630904134051,
  6161314747715278029583501626149,
  9969216677189303386214405760200,
  16130531424904581415797907386349,
  26099748102093884802012313146549,
  42230279526998466217810220532898,
  68330027629092351019822533679447,
  110560307156090817237632754212345,
  178890334785183168257455287891792,
  289450641941273985495088042104137,
  468340976726457153752543329995929,
  757791618667731139247631372100066,
  1226132595394188293000174702095995,
  1983924214061919432247806074196061,
  3210056809456107725247980776292056,
  5193981023518027157495786850488117,
  8404037832974134882743767626780173,
  13598018856492162040239554477268290,
  22002056689466296922983322104048463,
  35600075545958458963222876581316753,
  57602132235424755886206198685365216,
  93202207781383214849429075266681969,
  150804340016807970735635273952047185,
  244006547798191185585064349218729154,
  394810887814999156320699623170776339,
  638817435613190341905763972389505493,
  1033628323428189498226463595560281832,
  1672445759041379840132227567949787325,
  2706074082469569338358691163510069157,
  4378519841510949178490918731459856482,
  7084593923980518516849609894969925639,
  11463113765491467695340528626429782121,
  18547707689471986212190138521399707760,
  30010821454963453907530667147829489881,
  48558529144435440119720805669229197641,
  78569350599398894027251472817058687522,
  127127879743834334146972278486287885163,
  205697230343233228174223751303346572685,
  332825110087067562321196029789634457848]

/-- Accumulation loop of `fib_pair_u128` (`algo/fast_doubling.rs` lines
340-348): `k` remaining iterations of `let next = a + b; a = b; b = next;`
with the `u128` addition reduced modulo `2 ^ 128`. -/
def fibPairU128Loop : Nat → Nat × Nat → Nat × Nat
  | 0, ab => ab
  | k + 1, ab => fibPairU128Loop k (ab.2, (ab.1 + ab.2) % U128_MOD)

/-- `fib_pair_u128` (`algo/fast_doubling.rs` lines 335-350): computes
`(F(n), F(n+1))` in native `u128` arithmetic; intended for `n ≤ 185`. -/
def fib_pair_u128 (n : Nat) : Nat × Nat :=
  if n = 0 then (0, 1) else fibPairU128Loop n (0, 1)

/-- One iteration of the `fib_pair` doubling loop (`algo/fast_doubling.rs`
lines 288-325).  `bit` is bit `i` of `n`.  The names `a_sq`, `b_sq`, `d`,
`two_b_minus_a`, `two_a_plus_b` follow the source; `ibig::UBig` subtraction
(which requires the subtrahend not to exceed the minuend) is modelled by
truncated `Nat` subtraction. -/
def fdStep (bit : Bool) (ab : Nat × Nat) : Nat × Nat :=
  let a := ab.1
  let b := ab.2
  let a_sq := a * a
  let b_sq := b * b
  let d := a_sq + b_sq
  if bit then
    let two_a_plus_b := (a <<< 1) + b
    (d, b * two_a_plus_b)
  else
    let two_b_minus_a := (b <<< 1) - a
    (a * two_b_minus_a, d)

/-- State of the `fib_pair` doubling loop after its first `j` iterations.
The loop seeds at `(F(1), F(2)) = (1, 1)` (the leading 1-bit of `n` is
skipped) and its `(j+1)`-st iteration examines bit `log2 n - 1 - j` of `n`,
matching `for i in (0..highest_bit).rev()` with
`highest_bit = 63 - n.leading_zeros()` for `n < 2 ^ 64`. -/
def fdStateAfter (n : Nat) : Nat → Nat × Nat
  | 0 => (1, 1)
  | j + 1 => fdStep (n.testBit (n.log2 - 1 - j)) (fdStateAfter n j)

/-- `fib_pair` (`algo/fast_doubling.rs` lines 270-328): returns
`(F(n), F(n+1))`; delegates to `fib_pair_u128` for `n ≤ 185`, otherwise
runs the doubling loop over the bits of `n` below the leading bit. -/
def fib_pair (n : Nat) : Nat × Nat :=
  if n ≤ 185 then fib_pair_u128 n
  else if n = 0 then (0, 1)
  else fdStateAfter n n.log2

/-- `fibonacci_u128` (`algo/fast_doubling.rs` lines 246-251): lookup in the
precomputed table `FIB_U128_LOOKUP` (defined below); inputs above 186 are a
programming error (a `panic!` in the source). -/
def fibonacci_u128 (n : Nat) : Nat := FIB_U128_LOOKUP.getD n 0

/-- `fibonacci` (`algo/fast_doubling.rs` lines 28-35): the `u128` table for
`n ≤ 186`, the big-integer doubling path above. -/
def fibonacci (n : Nat) : Nat :=
  if n ≤ 186 then fibonacci_u128 n else (fib_pair n).1

/-- `fibonacci_fast_doubling` (`algo/fast_doubling.rs` lines 39-41): alias
of `fibonacci`. -/
def fibonacci_fast_doubling (n : Nat) : Nat := fibonacci n

/-! ### Parallel fast doubling (`algo/parallel.rs`) -/

/-- `calibrate_parallel_threshold` (`algo/parallel.rs` lines 23-59).  The two
environment inputs — `rayon::current_num_threads()` and the elapsed
microseconds of the `fibonacci_fast_doubling(10_000)` micro-benchmark — are
explicit parameters `cores` and `micros`; `saturating_sub` is `Nat`
subtraction. -/
def calibrate_parallel_threshold (cores micros : Nat) : Nat :=
  let base_threshold := if cores ≥ 8 then 25000 else if cores ≥ 4 then 40000 else 60000
  if micros < 200 then base_threshold + 10000
  else if micros > 1000 then base_threshold - 5000
  else base_threshold

/-- `get_parallel_threshold` (`algo/parallel.rs` lines 65-67).  The process-wide
`OnceLock` cell is modelled by explicit state passing: the function receives the
cell contents and returns the value it yields together with the new contents. -/
def get_parallel_threshold (st : Option Nat) (cores micros : Nat) : Nat × Option Nat :=
  match st with
  | some v => (v, some v)
  | none =>
    let v := calibrate_parallel_threshold cores micros
    (v, some v)

/-- Products `(c, d)` of one `fibonacci_parallel` loop iteration
(`algo/parallel.rs` lines 120-154): when `bit_len(a)` exceeds the calibrated
threshold the three multiplications are forked to worker threads, otherwise they
run inline; both branches compute `c = a·(2b−a)` and `d = a² + b²`.
`bit_len` is `Nat.size`. -/
def parCD (t : Nat) (ab : Nat × Nat) : Nat × Nat :=
  if ab.1.size > t then
    let two_b := ab.2 <<< 1
    let diff := two_b - ab.1
    let c := ab.1 * diff
    let a_sq := ab.1 ^ 2
    let b_sq := ab.2 ^ 2
    (c, a_sq + b_sq)
  else
    let two_b := ab.2 <<< 1
    let diff := two_b - ab.1
    let c := ab.1 * diff
    let a_sq := ab.1 ^ 2
    let b_sq := ab.2 ^ 2
    (c, a_sq + b_sq)

/-- State of the `fibonacci_parallel` doubling loop after its first `j`
iterations.  The loop seeds at `(F(0), F(1)) = (0, 1)` and runs
`for i in (0..=highest_bit).rev()`, so its `(j+1)`-st iteration examines bit
`log2 n - j` of `n`; on a 1-bit it sets `b = c + d; a = d`. -/
def parStateAfter (t n : Nat) : Nat → Nat × Nat
  | 0 => (0, 1)
  | j + 1 =>
    let cd := parCD t (parStateAfter t n j)
    if n.testBit (n.log2 - j) then (cd.2, cd.1 + cd.2) else cd

/-- `fibonacci_parallel` (`algo/parallel.rs` lines 100-166), parameterized by
the calibrated threshold `t` delivered by `get_parallel_threshold`. -/
def fibonacci_parallel (t n : Nat) : Nat :=
  if n = 0 then 0
  else if n = 1 then 1
  else if n = 2 then 1
  else (parStateAfter t n (n.log2 + 1)).1

/-! ### FFT-accelerated doubling (`algo/fft.rs`) -/

/-- `unified_fft_step` (`algo/fft.rs` lines 168-328): for `a = 0`
(`bit_len() == 0`) it returns `(0, b²)` with no transform; otherwise it computes
`(a·(2b−a), a² + b²)` through digit conversion, two forward and two inverse
floating-point FFTs and carry propagation.  The convolution pipeline is modelled
by the exact integer products it produces: under the base-bits precision
constraint (13 by default, 12 above `MASSIVE_THRESHOLD` combined bits) every
rounded intermediate equals the exact mathematical product (spec §4.5); the
digit conversions themselves are modelled and verified separately
(`ubig_to_digits`, `digits_to_ubig`). -/
def unified_fft_step (a b : Nat) : Nat × Nat :=
  if a.size = 0 then (0, b ^ 2)
  else (a * ((b <<< 1) - a), a ^ 2 + b ^ 2)

/-- Products `(c, d)` of one `fibonacci_fft` loop iteration (`algo/fft.rs`
lines 130-146): the unified FFT step once either operand exceeds
`FFT_BIT_THRESHOLD` bits, standard multiplication below. -/
def fftCD (ab : Nat × Nat) : Nat × Nat :=
  if ab.1.size > FFT_BIT_THRESHOLD ∨ ab.2.size > FFT_BIT_THRESHOLD then
    unified_fft_step ab.1 ab.2
  else
    let two_b := ab.2 <<< 1
    let diff := two_b - ab.1
    let c := ab.1 * diff
    let a_sq := ab.1 * ab.1
    let b_sq := ab.2 * ab.2
    (c, a_sq + b_sq)

/-- State of the `fibonacci_fft` doubling loop after its first `j` iterations;
seed `(F(0), F(1)) = (0, 1)`, iteration `j+1` examines bit `log2 n - j`. -/
def fftStateAfter (n : Nat) : Nat → Nat × Nat
  | 0 => (0, 1)
  | j + 1 =>
    let cd := fftCD (fftStateAfter n j)
    if n.testBit (n.log2 - j) then (cd.2, cd.1 + cd.2) else cd

/-- `fibonacci_fft` (`algo/fft.rs` lines 111-158). -/
def fibonacci_fft (n : Nat) : Nat :=
  if n = 0 then 0
  else if n = 1 then 1
  else (fftStateAfter n (n.log2 + 1)).1

/-! ### Adaptive dispatcher (`algo/mod.rs`) and limits (`lib.rs`) -/

/-- `FibError` (`types.rs` lines 6-14). -/
inductive FibError where
  | InputTooLarge (n max : Nat)
  | MemoryLimitExceeded (required_bytes limit_bytes : Nat)
deriving DecidableEq

/-- `estimate_memory_bytes` (`lib.rs` lines 86-103): `(n as u128 * 95) / 1000`
cast back to `u64`; the `u128` product and the final `u64` cast carry their
explicit moduli. -/
def estimate_memory_bytes (n : Nat) : Nat :=
  if n = 0 then 0
  else
    let bytes := (n * 95) % U128_MOD / 1000
    bytes % U64_MOD

/-- `try_fibonacci_adaptive` (`algo/mod.rs` lines 86-112), parameterized by the
calibrated threshold `t` consumed by `fibonacci_parallel`. -/
def try_fibonacci_adaptive (t n : Nat) : Except FibError Nat :=
  if n > MAX_SAFE_N then
    Except.error (FibError.InputTooLarge n MAX_SAFE_N)
  else
    let estimated_bytes := estimate_memory_bytes n
    if estimated_bytes > SAFE_MEMORY_BYTES then
      Except.error (FibError.MemoryLimitExceeded estimated_bytes SAFE_MEMORY_BYTES)
    else
      Except.ok
        (if n < PARALLEL_CROSSOVER then fibonacci_fast_doubling n
         else if n < FFT_CROSSOVER then fibonacci_parallel t n
         else fibonacci_fft n)

/-- `fibonacci_adaptive` (`algo/mod.rs` lines 61-63): unwraps the fallible
form; the `expect` panic on a limit violation is modelled by `Option`. -/
def fibonacci_adaptive (t n : Nat) : Option Nat :=
  (try_fibonacci_adaptive t n).toOption

/-! ### Range iterator (`iterators.rs`) -/

/-- `FibRange` (`iterators.rs` lines 27-35).  Field renames forced by Lean
keywords: `next` is `nxt` and `end` is `end_`. -/
structure FibRange where
  current : Nat
  nxt : Nat
  position : Nat
  end_ : Nat
  back_current : Nat
  back_next : Nat
deriving DecidableEq

/-- `FibRange::new` (`iterators.rs` lines 48-79). -/
def FibRange.new (start end_ : Nat) : FibRange :=
  if start ≥ end_ then
    { current := 0, nxt := 0, position := 0, end_ := 0, back_current := 0, back_next := 0 }
  else
    let p := fib_pair start
    let q := if end_ > 0 then fib_pair (end_ - 1) else (0, 0)
    { current := p.1, nxt := p.2, position := start, end_ := end_,
      back_current := q.1, back_next := q.2 }

/-- `Iterator::next` for `FibRange` (`iterators.rs` lines 92-106): yields the
value and the advanced iterator. -/
def FibRange.next (r : FibRange) : Option (Nat × FibRange) :=
  if r.position ≥ r.end_ then none
  else
    let result := r.current
    let new_next := r.current + r.nxt
    some (result, { r with current := r.nxt, nxt := new_next, position := r.position + 1 })

/-- `DoubleEndedIterator::next_back` for `FibRange` (`iterators.rs` lines
117-137).  The `ibig::UBig` subtraction `&back_next - &back_current` is
modelled by truncated `Nat` subtraction. -/
def FibRange.next_back (r : FibRange) : Option (Nat × FibRange) :=
  if r.position ≥ r.end_ then none
  else
    let result := r.back_current
    let new_back_current := r.back_next - r.back_current
    some (result,
      { r with end_ := r.end_ - 1, back_current := new_back_current,
               back_next := r.back_current })

/-- Fuel-driven forward collection of a `FibRange` (`Iterator::collect`). -/
def FibRange.collectFuel : Nat → FibRange → List Nat
  | 0, _ => []
  | fuel + 1, r =>
    match r.next with
    | none => []
    | some (x, r2) => x :: FibRange.collectFuel fuel r2

/-- `Iterator::collect` for `FibRange`: the remaining count
`end - position` bounds the number of steps. -/
def FibRange.collect (r : FibRange) : List Nat :=
  FibRange.collectFuel (r.end_ - r.position) r

/-- Fuel-driven backward collection of a `FibRange` (reverse iteration via
`next_back`). -/
def FibRange.collectBackFuel : Nat → FibRange → List Nat
  | 0, _ => []
  | fuel + 1, r =>
    match r.next_back with
    | none => []
    | some (x, r2) => x :: FibRange.collectBackFuel fuel r2

/-- Reverse collection of a `FibRange` (`.rev().collect()`). -/
def FibRange.collectBack (r : FibRange) : List Nat :=
  FibRange.collectBackFuel (r.end_ - r.position) r

/-- `fib_range_parallel` (`lib.rs` lines 236-244); the `_chunk_size` argument
is ignored by the source.  The rayon indexed collect preserves index order, so
its sequential semantics is the ordered collection of the full range; the
producer-splitting refinement is stated over `splitCollect`. -/
def fib_range_parallel (start end_ _chunk_size : Nat) : List Nat :=
  if start ≥ end_ then []
  else FibRange.collect (FibRange.new start end_)

/-- Ways rayon can consume `FibProducer` (`iterators.rs` lines 195-221): a leaf
is turned into a sequential `FibRange` by `into_iter`; `node k l r` is
`split_at(k)`, which splits `[start, end)` at `mid = start + k`. -/
inductive SplitTree where
  | leaf : SplitTree
  | node : Nat → SplitTree → SplitTree → SplitTree

/-- Result of consuming the producer for `[start, end)` under a given split
tree, concatenating the sub-results in index order. -/
def splitCollect : SplitTree → Nat → Nat → List Nat
  | SplitTree.leaf, start, end_ => FibRange.collect (FibRange.new start end_)
  | SplitTree.node k l r, start, end_ =>
      splitCollect l start (start + k) ++ splitCollect r (start + k) end_

/-- Validity of a split tree for a range of the given length: rayon calls
`split_at(index)` only with `index ≤ len`. -/
def ValidSplit : SplitTree → Nat → Prop
  | SplitTree.leaf, _ => True
  | SplitTree.node k l r, len => k ≤ len ∧ ValidSplit l k ∧ ValidSplit r (len - k)

instance instDecValidSplit : (t : SplitTree) → (len : Nat) → Decidable (ValidSplit t len)
  | SplitTree.leaf, _ => Decidable.isTrue trivial
  | SplitTree.node k l r, len =>
    have := instDecValidSplit l k
    have := instDecValidSplit r (len - k)
    inferInstanceAs (Decidable (_ ∧ _ ∧ _))

/-- Invariant of a `FibRange`: while the range is nonempty, the forward state
holds the Fibonacci pair at `position` and the backward state holds the pair
at `end - 1`; an exhausted range (`position ≥ end`) yields nothing, so its
fields are unconstrained. -/
def FibRangeInv (r : FibRange) : Prop :=
  r.position < r.end_ →
    r.current = Nat.fib r.position ∧ r.nxt = Nat.fib (r.position + 1) ∧
    r.back_current = Nat.fib (r.end_ - 1) ∧ r.back_next = Nat.fib r.end_

instance (r : FibRange) : Decidable (FibRangeInv r) := by
  unfold FibRangeInv; infer_instance

/-! ### Digit conversion for the FFT path (`algo/fft.rs`) -/

/-- `ibig::UBig::to_le_bytes`: minimal little-endian byte export; the number 0
exports as the empty sequence. -/
def toLeBytes (n : Nat) : List Nat :=
  if h : n = 0 then [] else n % 256 :: toLeBytes (n / 256)
termination_by n
decreasing_by exact Nat.div_lt_self (Nat.pos_of_ne_zero h) (by omega)

/-- `ibig::UBig::from_le_bytes`: little-endian import, any length, missing
high bytes are zero. -/
def fromLeBytes : List Nat → Nat
  | [] => 0
  | b :: rest => b + 256 * fromLeBytes rest

/-- Value of a little-endian digit list in base `base`. -/
def ofBase (base : Nat) : List Nat → Nat
  | [] => 0
  | d :: rest => d + base * ofBase base rest

/-- Drain loop of `ubig_to_digits_sequential` (`algo/fft.rs` lines 353-357):
`while bit_count >= base_bits { result.push((bits & mask) as u32); bits >>=
base_bits; bit_count -= base_bits; }` with `mask = (1u64 << base_bits) - 1`;
the `as u32` cast carries its modulus.  The guard `0 < b` makes the model
total; the source runs it only with `base_bits ≥ 12`. -/
def drainDigits (b : Nat) (bits bc : Nat) (acc : List Nat) : Nat × Nat × List Nat :=
  if h : 0 < b ∧ b ≤ bc then
    drainDigits b (bits >>> b) (bc - b) (acc ++ [(bits &&& ((1 <<< b) - 1)) % 2 ^ 32])
  else (bits, bc, acc)
termination_by bc
decreasing_by omega

/-- Byte loop of `ubig_to_digits_sequential` (`algo/fft.rs` lines 349-358):
`bits |= (byte as u64) << bit_count; bit_count += 8;` followed by the drain
loop; the `u64` shift carries its modulus. -/
def pushBytes (b : Nat) : List Nat → Nat → Nat → List Nat → Nat × Nat × List Nat
  | [], bits, bc, acc => (bits, bc, acc)
  | byte :: rest, bits, bc, acc =>
    let bits1 := bits ||| ((byte <<< bc) % U64_MOD)
    let s := drainDigits b bits1 (bc + 8) acc
    pushBytes b rest s.1 s.2.1 s.2.2

/-- Trailing-zero trim of `ubig_to_digits_sequential` (`algo/fft.rs` lines
365-367): `while result.len() > 1 && result.last() == Some(&0) {
result.pop(); }`. -/
def trimZeros (l : List Nat) : List Nat :=
  if h : 1 < l.length ∧ l.getLast? = some 0 then trimZeros l.dropLast else l
termination_by l.length
decreasing_by simp only [List.length_dropLast]; omega

/-- `ubig_to_digits_sequential` (`algo/fft.rs` lines 342-370). -/
def ubig_to_digits_sequential (bytes : List Nat) (base_bits : Nat) : List Nat :=
  let s := pushBytes base_bits bytes 0 0 []
  let result := if 0 < s.2.1 ∨ s.2.2 = [] then s.2.2 ++ [s.1 % 2 ^ 32] else s.2.2
  trimZeros result

/-- `ubig_to_digits` (`algo/fft.rs` lines 335-338). -/
def ubig_to_digits (n : Nat) (base_bits : Nat) : List Nat :=
  ubig_to_digits_sequential (toLeBytes n) base_bits

/-- Drain loop of `digits_to_ubig_sequential` (`algo/fft.rs` lines 395-399):
`while bit_count >= 8 { bytes.push((bits & 0xFF) as u8); bits >>= 8;
bit_count -= 8; }`. -/
def drainBytes (bits bc : Nat) (acc : List Nat) : Nat × Nat × List Nat :=
  if h : 8 ≤ bc then drainBytes (bits >>> 8) (bc - 8) (acc ++ [bits &&& 255])
  else (bits, bc, acc)
termination_by bc
decreasing_by omega

/-- Digit loop of `digits_to_ubig_sequential` (`algo/fft.rs` lines 391-400):
`bits |= d << bit_count; bit_count += base_bits;` followed by the drain loop;
the `u64` shift carries its modulus. -/
def pushDigits (base_bits : Nat) : List Nat → Nat → Nat → List Nat → Nat × Nat × List Nat
  | [], bits, bc, acc => (bits, bc, acc)
  | d :: rest, bits, bc, acc =>
    let bits1 := bits ||| ((d <<< bc) % U64_MOD)
    let s := drainBytes bits1 (bc + base_bits) acc
    pushDigits base_bits rest s.1 s.2.1 s.2.2

/-- `digits_to_ubig_sequential` (`algo/fft.rs` lines 386-407); the final
`bits as u8` push carries its modulus. -/
def digits_to_ubig_sequential (digits : List Nat) (base_bits : Nat) : Nat :=
  let s := pushDigits base_bits digits 0 0 []
  let bytes := if 0 < s.2.1 then s.2.2 ++ [s.1 % 256] else s.2.2
  fromLeBytes bytes

/-- `digits_to_ubig` (`algo/fft.rs` lines 377-382). -/
def digits_to_ubig (digits : List Nat) (base_bits : Nat) : Nat :=
  if digits = [] then 0 else digits_to_ubig_sequential digits base_bits

/-! ### Correctness of the fast-doubling path -/

/-- The `fib_pair_u128` loop tracks consecutive Fibonacci values modulo
`2 ^ 128`. -/
lemma fibPairU128Loop_fib (k : Nat) :
    ∀ m, fibPairU128Loop k (Nat.fib m % U128_MOD, Nat.fib (m + 1) % U128_MOD) =
      (Nat.fib (m + k) % U128_MOD, Nat.fib (m + k + 1) % U128_MOD) := by
  induction k with
  | zero => intro m; rfl
  | succ k ih =>
    intro m
    have hadd : (Nat.fib m % U128_MOD + Nat.fib (m + 1) % U128_MOD) % U128_MOD =
        Nat.fib (m + 2) % U128_MOD := by
      rw [← Nat.add_mod, ← Nat.fib_add_two]
    have := ih (m + 1)
    rw [fibPairU128Loop]
    simp only [hadd]
    rw [this, show m + 1 + k = m + k + 1 by omega,
      show m + (k + 1) = m + k + 1 by omega]

/-- `F(186)` fits in a `u128`. -/
lemma fib186_lt : Nat.fib 186 < U128_MOD := by decide

/-- For `n ≤ 185`, `fib_pair_u128` returns exactly `(F(n), F(n+1))`. -/
lemma fib_pair_u128_spec (n : Nat) (h : n ≤ 185) :
    fib_pair_u128 n = (Nat.fib n, Nat.fib (n + 1)) := by
  have hb : Nat.fib (n + 1) < U128_MOD :=
    lt_of_le_of_lt (Nat.fib_mono (by omega)) fib186_lt
  have ha : Nat.fib n < U128_MOD :=
    lt_of_le_of_lt (Nat.fib_mono (by omega)) fib186_lt
  unfold fib_pair_u128
  by_cases h0 : n = 0
  · subst h0; rfl
  · rw [if_neg h0]
    have start : ((0 : Nat), (1 : Nat)) =
        (Nat.fib 0 % U128_MOD, Nat.fib (0 + 1) % U128_MOD) := by decide
    rw [start, fibPairU128Loop_fib n 0]
    simp only [Nat.zero_add]
    rw [Nat.mod_eq_of_lt ha, Nat.mod_eq_of_lt hb]

set_option maxRecDepth 4000 in
/-- The lookup table holds `F(0) .. F(186)`. -/
lemma fib_table : ∀ n, n < 187 → FIB_U128_LOOKUP.getD n 0 = Nat.fib n := by decide

lemma fib_step_c (k : Nat) :
    Nat.fib k * (2 * Nat.fib (k + 1) - Nat.fib k) = Nat.fib (2 * k) :=
  (Nat.fib_two_mul k).symm

lemma fib_step_d (k : Nat) :
    Nat.fib k * Nat.fib k + Nat.fib (k + 1) * Nat.fib (k + 1) =
      Nat.fib (2 * k + 1) := by
  rw [Nat.fib_two_mul_add_one]; ring

lemma fib_step_e (k : Nat) :
    Nat.fib (k + 1) * (2 * Nat.fib k + Nat.fib (k + 1)) = Nat.fib (2 * k + 2) :=
  (Nat.fib_two_mul_add_two k).symm

/-- One doubling iteration advances a Fibonacci state `(F(k), F(k+1))` to
`(F(2k), F(2k+1))` on a 0-bit and to `(F(2k+1), F(2k+2))` on a 1-bit. -/
lemma fdStep_fib (bit : Bool) (k : Nat) :
    fdStep bit (Nat.fib k, Nat.fib (k + 1)) =
      (Nat.fib (2 * k + cond bit 1 0), Nat.fib (2 * k + cond bit 1 0 + 1)) := by
  cases bit with
  | false =>
    simp only [fdStep, cond, Nat.shiftLeft_eq, pow_one, Bool.false_eq_true,
      if_false, Nat.add_zero]
    rw [Prod.mk.injEq]
    refine ⟨?_, fib_step_d k⟩
    rw [← fib_step_c k, Nat.mul_comm (Nat.fib (k + 1)) 2]
  | true =>
    simp only [fdStep, cond, Nat.shiftLeft_eq, pow_one, if_true]
    rw [Prod.mk.injEq]
    refine ⟨fib_step_d k, ?_⟩
    rw [show 2 * k + 1 + 1 = 2 * k + 2 by omega, ← fib_step_e k,
      Nat.mul_comm (Nat.fib k) 2]

/-- Shifting a positive number right by its base-2 logarithm leaves its
leading bit. -/
lemma shiftRight_log2_self {n : Nat} (hn : 1 ≤ n) : n >>> n.log2 = 1 := by
  rw [Nat.shiftRight_eq_div_pow]
  have h1 : 2 ^ n.log2 ≤ n := Nat.log2_self_le (by omega)
  have h2 : n < 2 ^ (n.log2 + 1) := Nat.lt_log2_self
  have e : 2 ^ (n.log2 + 1) = 2 ^ n.log2 * 2 := Nat.pow_succ 2 n.log2
  exact Nat.div_eq_of_lt_le (by omega) (by omega)

/-- Peeling one bit off a right shift. -/
lemma shiftRight_decomp (n i : Nat) :
    n >>> i = 2 * (n >>> (i + 1)) + (n >>> i) % 2 := by
  rw [Nat.shiftRight_eq_div_pow, Nat.shiftRight_eq_div_pow, Nat.pow_succ,
    ← Nat.div_div_eq_div_mul]
  exact (Nat.div_add_mod (n / 2 ^ i) 2).symm

/-- `testBit` in terms of shifting. -/
lemma testBit_shift (n i : Nat) : n.testBit i = decide ((n >>> i) % 2 = 1) := by
  rw [Nat.testBit_to_div_mod, Nat.shiftRight_eq_div_pow]

/-- Invariant of the `fib_pair` doubling loop: after `j` of the
`log2 n` iterations the state holds the Fibonacci pair at index
`n >>> (log2 n - j)`. -/
lemma fdStateAfter_spec (n : Nat) (hn : 1 ≤ n) :
    ∀ j, j ≤ n.log2 →
      fdStateAfter n j =
        (Nat.fib (n >>> (n.log2 - j)), Nat.fib (n >>> (n.log2 - j) + 1)) := by
  intro j
  induction j with
  | zero =>
    intro _
    have h1 : n >>> n.log2 = 1 := shiftRight_log2_self hn
    simp only [fdStateAfter, Nat.sub_zero, h1]
    rfl
  | succ j ih =>
    intro hj
    have hj' : j ≤ n.log2 := by omega
    rw [fdStateAfter, ih hj']
    have hi : n.log2 - 1 - j = n.log2 - (j + 1) := by omega
    have hsucc : n.log2 - j = n.log2 - (j + 1) + 1 := by omega
    rw [hi, hsucc]
    set i := n.log2 - (j + 1) with hidef
    have hdec : n >>> i = 2 * (n >>> (i + 1)) + (n >>> i) % 2 := shiftRight_decomp n i
    rcases Nat.mod_two_eq_zero_or_one (n >>> i) with hpar | hpar
    · have hb : n.testBit i = false := by rw [testBit_shift, hpar]; decide
      rw [hb, fdStep_fib false (n >>> (i + 1))]
      simp only [cond, Nat.add_zero]
      rw [hpar] at hdec
      rw [show n >>> i = 2 * (n >>> (i + 1)) by omega]
    · have hb : n.testBit i = true := by rw [testBit_shift, hpar]; decide
      rw [hb, fdStep_fib true (n >>> (i + 1))]
      simp only [cond]
      rw [hpar] at hdec
      rw [show n >>> i = 2 * (n >>> (i + 1)) + 1 by omega]

/-- `fib_pair` computes exactly the Fibonacci pair, for every `n`. -/
lemma fib_pair_spec (n : Nat) : fib_pair n = (Nat.fib n, Nat.fib (n + 1)) := by
  unfold fib_pair
  by_cases h : n ≤ 185
  · rw [if_pos h]; exact fib_pair_u128_spec n h
  · rw [if_neg h, if_neg (by omega : ¬ n = 0)]
    have := fdStateAfter_spec n (by omega) n.log2 (Nat.le_refl _)
    rw [Nat.sub_self] at this
    simpa using this

/-- `fibonacci` computes exactly `F(n)`, for every `n`. -/
lemma fibonacci_spec (n : Nat) : fibonacci n = Nat.fib n := by
  unfold fibonacci
  by_cases h : n ≤ 186
  · rw [if_pos h]; exact fib_table n (by omega)
  · rw [if_neg h, fib_pair_spec]

/-! ### Correctness of the parallel and FFT doubling loops -/

/-- Both branches of the parallel doubling step compute the same products. -/
lemma parCD_eq (t : Nat) (ab : Nat × Nat) :
    parCD t ab = (ab.1 * ((ab.2 <<< 1) - ab.1), ab.1 ^ 2 + ab.2 ^ 2) := by
  unfold parCD
  rw [ite_self]

/-- The doubling products at a Fibonacci state. -/
lemma cd_pair_fib (k : Nat) :
    (Nat.fib k * ((Nat.fib (k + 1) <<< 1) - Nat.fib k),
      Nat.fib k ^ 2 + Nat.fib (k + 1) ^ 2) =
      (Nat.fib (2 * k), Nat.fib (2 * k + 1)) := by
  rw [Prod.mk.injEq]
  constructor
  · rw [Nat.shiftLeft_eq, pow_one, ← fib_step_c k, Nat.mul_comm (Nat.fib (k + 1)) 2]
  · rw [← fib_step_d k]; ring

lemma parCD_fib (t k : Nat) :
    parCD t (Nat.fib k, Nat.fib (k + 1)) = (Nat.fib (2 * k), Nat.fib (2 * k + 1)) := by
  rw [parCD_eq]; exact cd_pair_fib k

/-- The unified FFT step always equals the exact doubling products (its `a = 0`
special case included). -/
lemma unified_fft_step_eq (a b : Nat) :
    unified_fft_step a b = (a * ((b <<< 1) - a), a ^ 2 + b ^ 2) := by
  unfold unified_fft_step
  by_cases h : a.size = 0
  · rw [if_pos h]
    have ha : a = 0 := Nat.size_eq_zero.mp h
    subst ha
    simp
  · rw [if_neg h]

/-- Both branches of the FFT doubling step compute the same products. -/
lemma fftCD_eq (ab : Nat × Nat) :
    fftCD ab = (ab.1 * ((ab.2 <<< 1) - ab.1), ab.1 ^ 2 + ab.2 ^ 2) := by
  unfold fftCD
  by_cases h : ab.1.size > FFT_BIT_THRESHOLD ∨ ab.2.size > FFT_BIT_THRESHOLD
  · rw [if_pos h, unified_fft_step_eq]
  · rw [if_neg h, Prod.mk.injEq]
    exact ⟨rfl, by ring⟩

lemma fftCD_fib (k : Nat) :
    fftCD (Nat.fib k, Nat.fib (k + 1)) = (Nat.fib (2 * k), Nat.fib (2 * k + 1)) := by
  rw [fftCD_eq]; exact cd_pair_fib k

/-- Invariant of the `fibonacci_parallel` loop: after `j` of the `log2 n + 1`
iterations the state holds the Fibonacci pair at index `n >>> (log2 n + 1 - j)`,
for every value of the calibrated threshold. -/
lemma parStateAfter_fib (t n : Nat) :
    ∀ j, j ≤ n.log2 + 1 →
      parStateAfter t n j =
        (Nat.fib (n >>> (n.log2 + 1 - j)), Nat.fib (n >>> (n.log2 + 1 - j) + 1)) := by
  intro j
  induction j with
  | zero =>
    intro _
    have h0 : n >>> (n.log2 + 1) = 0 := by
      rw [Nat.shiftRight_eq_div_pow]
      exact Nat.div_eq_of_lt Nat.lt_log2_self
    simp only [parStateAfter, Nat.sub_zero, h0]
    rfl
  | succ j ih =>
    intro hj
    have hj' : j ≤ n.log2 + 1 := by omega
    simp only [parStateAfter]
    rw [ih hj']
    have hi : n.log2 - j = n.log2 + 1 - (j + 1) := by omega
    have hsucc : n.log2 + 1 - j = n.log2 + 1 - (j + 1) + 1 := by omega
    rw [hi, hsucc]
    set i := n.log2 + 1 - (j + 1) with hidef
    have hdec : n >>> i = 2 * (n >>> (i + 1)) + (n >>> i) % 2 := shiftRight_decomp n i
    rcases Nat.mod_two_eq_zero_or_one (n >>> i) with hpar | hpar
    · have hb : n.testBit i = false := by rw [testBit_shift, hpar]; decide
      rw [hb, parCD_fib t (n >>> (i + 1))]
      rw [hpar] at hdec
      simp only [Bool.false_eq_true, if_false]
      rw [show n >>> i = 2 * (n >>> (i + 1)) by omega]
    · have hb : n.testBit i = true := by rw [testBit_shift, hpar]; decide
      rw [hb, parCD_fib t (n >>> (i + 1))]
      rw [hpar] at hdec
      simp only [if_true]
      rw [show n >>> i = 2 * (n >>> (i + 1)) + 1 by omega]
      rw [Prod.mk.injEq]
      refine ⟨rfl, ?_⟩
      rw [show 2 * (n >>> (i + 1)) + 1 + 1 = 2 * (n >>> (i + 1)) + 2 by omega,
        Nat.fib_add_two]

/-- Invariant of the `fibonacci_fft` loop, identical in shape to the parallel
one. -/
lemma fftStateAfter_fib (n : Nat) :
    ∀ j, j ≤ n.log2 + 1 →
      fftStateAfter n j =
        (Nat.fib (n >>> (n.log2 + 1 - j)), Nat.fib (n >>> (n.log2 + 1 - j) + 1)) := by
  intro j
  induction j with
  | zero =>
    intro _
    have h0 : n >>> (n.log2 + 1) = 0 := by
      rw [Nat.shiftRight_eq_div_pow]
      exact Nat.div_eq_of_lt Nat.lt_log2_self
    simp only [fftStateAfter, Nat.sub_zero, h0]
    rfl
  | succ j ih =>
    intro hj
    have hj' : j ≤ n.log2 + 1 := by omega
    simp only [fftStateAfter]
    rw [ih hj']
    have hi : n.log2 - j = n.log2 + 1 - (j + 1) := by omega
    have hsucc : n.log2 + 1 - j = n.log2 + 1 - (j + 1) + 1 := by omega
    rw [hi, hsucc]
    set i := n.log2 + 1 - (j + 1) with hidef
    have hdec : n >>> i = 2 * (n >>> (i + 1)) + (n >>> i) % 2 := shiftRight_decomp n i
    rcases Nat.mod_two_eq_zero_or_one (n >>> i) with hpar | hpar
    · have hb : n.testBit i = false := by rw [testBit_shift, hpar]; decide
      rw [hb, fftCD_fib (n >>> (i + 1))]
      rw [hpar] at hdec
      simp only [Bool.false_eq_true, if_false]
      rw [show n >>> i = 2 * (n >>> (i + 1)) by omega]
    · have hb : n.testBit i = true := by rw [testBit_shift, hpar]; decide
      rw [hb, fftCD_fib (n >>> (i + 1))]
      rw [hpar] at hdec
      simp only [if_true]
      rw [show n >>> i = 2 * (n >>> (i + 1)) + 1 by omega]
      rw [Prod.mk.injEq]
      refine ⟨rfl, ?_⟩
      rw [show 2 * (n >>> (i + 1)) + 1 + 1 = 2 * (n >>> (i + 1)) + 2 by omega,
        Nat.fib_add_two]

/-- `fibonacci_parallel` computes `F(n)` for every threshold value. -/
lemma fibonacci_parallel_spec (t n : Nat) : fibonacci_parallel t n = Nat.fib n := by
  unfold fibonacci_parallel
  by_cases h0 : n = 0
  · subst h0; rfl
  by_cases h1 : n = 1
  · subst h1; rfl
  by_cases h2 : n = 2
  · subst h2; rfl
  rw [if_neg h0, if_neg h1, if_neg h2]
  have := parStateAfter_fib t n (n.log2 + 1) (Nat.le_refl _)
  rw [Nat.sub_self, Nat.shiftRight_zero] at this
  rw [this]

/-- `fibonacci_fft` computes `F(n)` (under the exact-product model of the
convolution). -/
lemma fibonacci_fft_spec (n : Nat) : fibonacci_fft n = Nat.fib n := by
  unfold fibonacci_fft
  by_cases h0 : n = 0
  · subst h0; rfl
  by_cases h1 : n = 1
  · subst h1; rfl
  rw [if_neg h0, if_neg h1]
  have := fftStateAfter_fib n (n.log2 + 1) (Nat.le_refl _)
  rw [Nat.sub_self, Nat.shiftRight_zero] at this
  rw [this]

/-- C1: for every `n : u64`, `fibonacci_fast_doubling(n)` (alias
`fibonacci(n)`) returns exactly `F(n)` and `fib_pair(n)` returns exactly
`(F(n), F(n+1))`, the `u128` fast paths for `n ≤ 186` (resp. `n ≤ 185`) and
the bit-iteration path seeded at `(F(1), F(2)) = (1, 1)` included. -/
theorem C1_fast_doubling_correct :
    ∀ n : Nat, n < 2 ^ 64 →
      fibonacci_fast_doubling n = Nat.fib n ∧
      fibonacci n = Nat.fib n ∧
      fib_pair n = (Nat.fib n, Nat.fib (n + 1)) :=
  fun n _ => ⟨fibonacci_spec n, fibonacci_spec n, fib_pair_spec n⟩

theorem C1_witness :
    200 < 2 ^ 64 ∧
      (fibonacci_fast_doubling 200 = Nat.fib 200 ∧ fibonacci 200 = Nat.fib 200 ∧
        fib_pair 200 = (Nat.fib 200, Nat.fib (200 + 1))) :=
  ⟨by decide, C1_fast_doubling_correct 200 (by decide)⟩

/-- C2: for every `n : u64` and every possible calibrated threshold value
(which only selects between the forked and the inline branch),
`fibonacci_parallel(n)` equals `fibonacci_fast_doubling(n) = F(n)`; moreover
the bit-1 transition `new_b = c + d` agrees with the fast-doubling transition
`b·(2a+b)` at every Fibonacci state. -/
theorem C2_parallel_refines_fast_doubling :
    ∀ t n : Nat, n < 2 ^ 64 →
      fibonacci_parallel t n = fibonacci_fast_doubling n ∧
      fibonacci_parallel t n = Nat.fib n ∧
      (∀ k : Nat, Nat.fib (2 * k) + Nat.fib (2 * k + 1) =
        Nat.fib (k + 1) * (2 * Nat.fib k + Nat.fib (k + 1))) := by
  intro t n _
  refine ⟨?_, fibonacci_parallel_spec t n, ?_⟩
  · rw [fibonacci_parallel_spec t n]
    exact (fibonacci_spec n).symm
  · intro k
    rw [← Nat.fib_add_two, ← fib_step_e k]

theorem C2_witness :
    100 < 2 ^ 64 ∧
      (fibonacci_parallel 0 100 = fibonacci_fast_doubling 100 ∧
        fibonacci_parallel 0 100 = Nat.fib 100 ∧
        (∀ k : Nat, Nat.fib (2 * k) + Nat.fib (2 * k + 1) =
          Nat.fib (k + 1) * (2 * Nat.fib k + Nat.fib (k + 1)))) :=
  ⟨by decide, C2_parallel_refines_fast_doubling 0 100 (by decide)⟩

/-! ### Adaptive dispatcher and limits -/

lemma mul95_lt (n : Nat) (h : n < 2 ^ 64) : n * 95 < U128_MOD := by
  have h1 : n * 95 < 2 ^ 64 * 95 := Nat.mul_lt_mul_of_lt_of_le h (Nat.le_refl 95) (by decide)
  have h2 : (2 : Nat) ^ 64 * 95 ≤ U128_MOD := by decide
  omega

lemma div1000_lt (n : Nat) (h : n < 2 ^ 64) : n * 95 / 1000 < U64_MOD := by
  have h1 : n * 95 ≤ n * 1000 := Nat.mul_le_mul_left n (by decide)
  have h2 : n * 95 / 1000 ≤ n * 1000 / 1000 := Nat.div_le_div_right h1
  have h3 : n * 1000 / 1000 = n := by omega
  have e64 : U64_MOD = 18446744073709551616 := by decide
  have h4 : n < 18446744073709551616 := by
    have : (2 : Nat) ^ 64 = 18446744073709551616 := by norm_num
    omega
  omega

/-- Within `u64` range the memory estimate is exactly `⌊n·95/1000⌋`. -/
lemma estimate_memory_bytes_eq (n : Nat) (h : n < 2 ^ 64) :
    estimate_memory_bytes n = n * 95 / 1000 := by
  unfold estimate_memory_bytes
  by_cases h0 : n = 0
  · subst h0; rfl
  · rw [if_neg h0]
    show (n * 95) % U128_MOD / 1000 % U64_MOD = n * 95 / 1000
    rw [Nat.mod_eq_of_lt (mul95_lt n h), Nat.mod_eq_of_lt (div1000_lt n h)]

/-- Trichotomy of `try_fibonacci_adaptive`: input error, memory error, or the
dispatched value. -/
lemma try_adaptive_cases (t n : Nat) :
    (MAX_SAFE_N < n ∧ try_fibonacci_adaptive t n =
      Except.error (FibError.InputTooLarge n MAX_SAFE_N)) ∨
    (n ≤ MAX_SAFE_N ∧ SAFE_MEMORY_BYTES < estimate_memory_bytes n ∧
      try_fibonacci_adaptive t n =
        Except.error
          (FibError.MemoryLimitExceeded (estimate_memory_bytes n) SAFE_MEMORY_BYTES)) ∨
    (n ≤ MAX_SAFE_N ∧ estimate_memory_bytes n ≤ SAFE_MEMORY_BYTES ∧
      try_fibonacci_adaptive t n =
        Except.ok
          (if n < PARALLEL_CROSSOVER then fibonacci_fast_doubling n
           else if n < FFT_CROSSOVER then fibonacci_parallel t n
           else fibonacci_fft n)) := by
  by_cases h1 : n > MAX_SAFE_N
  · left
    refine ⟨h1, ?_⟩
    simp only [try_fibonacci_adaptive]
    rw [if_pos h1]
  · by_cases h2 : estimate_memory_bytes n > SAFE_MEMORY_BYTES
    · right; left
      refine ⟨by omega, h2, ?_⟩
      simp only [try_fibonacci_adaptive]
      rw [if_neg h1, if_pos h2]
    · right; right
      refine ⟨by omega, by omega, ?_⟩
      simp only [try_fibonacci_adaptive]
      rw [if_neg h1, if_neg h2]

/-- C3: `try_fibonacci_adaptive(n)` returns `InputTooLarge{n, max = 10^12}`
iff `n > 10^12`; for `n ≤ 10^12` it returns
`MemoryLimitExceeded{estimate_memory_bytes(n), 8·2^30}` iff the estimate
exceeds the limit; these are the only error kinds, and
`try_fibonacci_adaptive(10^13)` is `InputTooLarge{n: 10^13, max: 10^12}`. -/
theorem C3_adaptive_errors (t n : Nat) :
    (try_fibonacci_adaptive t n =
        Except.error (FibError.InputTooLarge n MAX_SAFE_N) ↔ MAX_SAFE_N < n) ∧
    (n ≤ MAX_SAFE_N →
      (try_fibonacci_adaptive t n =
          Except.error
            (FibError.MemoryLimitExceeded (estimate_memory_bytes n) SAFE_MEMORY_BYTES) ↔
        SAFE_MEMORY_BYTES < estimate_memory_bytes n)) ∧
    (∀ e, try_fibonacci_adaptive t n = Except.error e →
      e = FibError.InputTooLarge n MAX_SAFE_N ∨
      e = FibError.MemoryLimitExceeded (estimate_memory_bytes n) SAFE_MEMORY_BYTES) ∧
    MAX_SAFE_N = 10 ^ 12 ∧ SAFE_MEMORY_BYTES = 8 * 2 ^ 30 ∧
    try_fibonacci_adaptive t (10 ^ 13) =
      Except.error (FibError.InputTooLarge (10 ^ 13) (10 ^ 12)) := by
  have hc := try_adaptive_cases t n
  refine ⟨?_, ?_, ?_, by decide, by decide, ?_⟩
  · constructor
    · intro h
      rcases hc with ⟨h1, he⟩ | ⟨h1, h2, he⟩ | ⟨h1, h2, he⟩
      · exact h1
      · rw [he] at h; simp at h
      · rw [he] at h; simp at h
    · intro h
      rcases hc with ⟨h1, he⟩ | ⟨h1, h2, he⟩ | ⟨h1, h2, he⟩
      · exact he
      · omega
      · omega
  · intro hn
    constructor
    · intro h
      rcases hc with ⟨h1, he⟩ | ⟨h1, h2, he⟩ | ⟨h1, h2, he⟩
      · omega
      · exact h2
      · rw [he] at h; simp at h
    · intro h
      rcases hc with ⟨h1, he⟩ | ⟨h1, h2, he⟩ | ⟨h1, h2, he⟩
      · omega
      · exact he
      · omega
  · intro e he
    rcases hc with ⟨h1, he2⟩ | ⟨h1, h2, he2⟩ | ⟨h1, h2, he2⟩
    · rw [he2] at he
      simp only [Except.error.injEq] at he
      exact Or.inl he.symm
    · rw [he2] at he
      simp only [Except.error.injEq] at he
      exact Or.inr he.symm
    · rw [he2] at he
      simp at he
  · rfl

theorem C3_witness :
    try_fibonacci_adaptive 0 (10 ^ 13) =
      Except.error (FibError.InputTooLarge (10 ^ 13) (10 ^ 12)) :=
  (C3_adaptive_errors 0 (10 ^ 13)).2.2.2.2.2

/-- C4: within the limits, `try_fibonacci_adaptive` dispatches on the
crossovers 40 000 and 200 000, the unwrapped `fibonacci_adaptive` value is
`F(n)`, and on `[0, 50 000]` the adaptive result agrees with fast doubling. -/
theorem C4_adaptive_dispatch (t n : Nat) (hmax : n ≤ MAX_SAFE_N)
    (hmem : estimate_memory_bytes n ≤ SAFE_MEMORY_BYTES) :
    try_fibonacci_adaptive t n =
      Except.ok
        (if n < 40000 then fibonacci_fast_doubling n
         else if n < 200000 then fibonacci_parallel t n
         else fibonacci_fft n) ∧
    fibonacci_adaptive t n = some (Nat.fib n) ∧
    (n ≤ 50000 → fibonacci_adaptive t n = some (fibonacci_fast_doubling n)) := by
  rcases try_adaptive_cases t n with ⟨h1, _⟩ | ⟨_, h2, _⟩ | ⟨_, _, he⟩
  · omega
  · omega
  · have hval :
        (if n < PARALLEL_CROSSOVER then fibonacci_fast_doubling n
         else if n < FFT_CROSSOVER then fibonacci_parallel t n
         else fibonacci_fft n) = Nat.fib n := by
      split_ifs with ha hb
      · exact fibonacci_spec n
      · exact fibonacci_parallel_spec t n
      · exact fibonacci_fft_spec n
    refine ⟨?_, ?_, ?_⟩
    · simpa only [PARALLEL_CROSSOVER, FFT_CROSSOVER] using he
    · unfold fibonacci_adaptive
      rw [he, hval]
      rfl
    · intro _
      unfold fibonacci_adaptive
      rw [he, hval]
      exact congrArg some (fibonacci_spec n).symm

theorem C4_witness :
    50000 ≤ MAX_SAFE_N ∧ estimate_memory_bytes 50000 ≤ SAFE_MEMORY_BYTES ∧
      fibonacci_adaptive 0 50000 = some (fibonacci_fast_doubling 50000) :=
  ⟨by decide, by decide,
    (C4_adaptive_dispatch 0 50000 (by decide) (by decide)).2.2 (by decide)⟩

/-! ### Threshold calibration -/

/-- C7: the calibrated threshold is `base + 10000` below 200 µs,
`base saturating-minus 5000` above 1000 µs, `base` otherwise, with
`base = 25000 / 40000 / 60000` by core count; for every measured time and core
count it lies in `[20000, 80000]`; and `get_parallel_threshold` memoizes the
first result, every later call returning the same value. -/
theorem C7_threshold_calibration (cores micros : Nat) :
    calibrate_parallel_threshold cores micros =
      (let base := if cores ≥ 8 then 25000 else if cores ≥ 4 then 40000 else 60000
       if micros < 200 then base + 10000
       else if micros > 1000 then base - 5000
       else base) ∧
    20000 ≤ calibrate_parallel_threshold cores micros ∧
    calibrate_parallel_threshold cores micros ≤ 80000 ∧
    (∀ st c1 m1,
      (get_parallel_threshold st c1 m1).2 = some (get_parallel_threshold st c1 m1).1) ∧
    (∀ v c1 m1, get_parallel_threshold (some v) c1 m1 = (v, some v)) ∧
    (∀ st c1 m1 c2 m2,
      get_parallel_threshold ((get_parallel_threshold st c1 m1).2) c2 m2 =
        ((get_parallel_threshold st c1 m1).1, (get_parallel_threshold st c1 m1).2)) := by
  refine ⟨rfl, ?_, ?_, ?_, ?_, ?_⟩
  · simp only [calibrate_parallel_threshold]
    split_ifs <;> omega
  · simp only [calibrate_parallel_threshold]
    split_ifs <;> omega
  · intro st c1 m1
    cases st <;> rfl
  · intro v c1 m1
    rfl
  · intro st c1 m1 c2 m2
    cases st <;> rfl

theorem C7_witness :
    20000 ≤ calibrate_parallel_threshold 8 100 ∧
      calibrate_parallel_threshold 8 100 ≤ 80000 ∧
      get_parallel_threshold (get_parallel_threshold none 8 100).2 4 5000 =
        ((get_parallel_threshold none 8 100).1, (get_parallel_threshold none 8 100).2) :=
  ⟨(C7_threshold_calibration 8 100).2.1, (C7_threshold_calibration 8 100).2.2.1,
    (C7_threshold_calibration 8 100).2.2.2.2.2 none 8 100 4 5000⟩

/-- C8: for every `n : u64`, `estimate_memory_bytes(n) = ⌊n·95/1000⌋`: the
128-bit product never wraps, the result fits back into `u64`, and
`estimate_memory_bytes(0) = 0`. -/
theorem C8_estimate_memory (n : Nat) (h : n < 2 ^ 64) :
    estimate_memory_bytes n = n * 95 / 1000 ∧
    (n * 95) % U128_MOD = n * 95 ∧
    (n * 95 / 1000) % U64_MOD = n * 95 / 1000 ∧
    estimate_memory_bytes 0 = 0 :=
  ⟨estimate_memory_bytes_eq n h, Nat.mod_eq_of_lt (mul95_lt n h),
    Nat.mod_eq_of_lt (div1000_lt n h), rfl⟩

theorem C8_witness :
    (12345678901234567890 : Nat) < 2 ^ 64 ∧
      estimate_memory_bytes 12345678901234567890 =
        12345678901234567890 * 95 / 1000 :=
  ⟨by decide, (C8_estimate_memory 12345678901234567890 (by decide)).1⟩

/-! ### Range iterator correctness -/

/-- An exhausted range yields nothing forward. -/
lemma FibRange_next_none (r : FibRange) (h : r.end_ ≤ r.position) :
    r.next = none := by
  unfold FibRange.next
  rw [if_pos h]

/-- An exhausted range yields nothing backward. -/
lemma FibRange_next_back_none (r : FibRange) (h : r.end_ ≤ r.position) :
    r.next_back = none := by
  unfold FibRange.next_back
  rw [if_pos h]

/-- A forward step of a live range yields `F(position)` and preserves the
invariant, advancing `position`. -/
lemma FibRange_next_some (r : FibRange) (hinv : FibRangeInv r)
    (h : r.position < r.end_) :
    ∃ r2, r.next = some (Nat.fib r.position, r2) ∧ FibRangeInv r2 ∧
      r2.position = r.position + 1 ∧ r2.end_ = r.end_ := by
  obtain ⟨hc, hn, hbc, hbn⟩ := hinv h
  refine ⟨⟨r.nxt, r.current + r.nxt, r.position + 1, r.end_,
    r.back_current, r.back_next⟩, ?_, ?_, rfl, rfl⟩
  · simp only [FibRange.next, if_neg (Nat.not_le.mpr h), hc]
  · intro h2
    refine ⟨hn, ?_, hbc, hbn⟩
    show r.current + r.nxt = Nat.fib (r.position + 1 + 1)
    rw [hc, hn, show r.position + 1 + 1 = r.position + 2 from rfl, Nat.fib_add_two]

/-- A backward step of a live range yields `F(end - 1)` and preserves the
invariant, retracting `end`; the big-integer subtraction it performs is
`F(end) - F(end-1)`. -/
lemma FibRange_next_back_some (r : FibRange) (hinv : FibRangeInv r)
    (h : r.position < r.end_) :
    ∃ r2, r.next_back = some (Nat.fib (r.end_ - 1), r2) ∧ FibRangeInv r2 ∧
      r2.position = r.position ∧ r2.end_ = r.end_ - 1 := by
  obtain ⟨hc, hn, hbc, hbn⟩ := hinv h
  refine ⟨⟨r.current, r.nxt, r.position, r.end_ - 1,
    r.back_next - r.back_current, r.back_current⟩, ?_, ?_, rfl, rfl⟩
  · simp only [FibRange.next_back, if_neg (Nat.not_le.mpr h), hbc]
  · intro h2
    have h2e : 2 ≤ r.end_ := by
      have : r.position < r.end_ - 1 := h2
      omega
    refine ⟨hc, hn, ?_, ?_⟩
    · show r.back_next - r.back_current = Nat.fib (r.end_ - 1 - 1)
      rw [hbn, hbc]
      have hrec : Nat.fib r.end_ = Nat.fib (r.end_ - 2) + Nat.fib (r.end_ - 1) := by
        calc Nat.fib r.end_ = Nat.fib (r.end_ - 2 + 2) := by
              rw [Nat.sub_add_cancel h2e]
        _ = Nat.fib (r.end_ - 2) + Nat.fib (r.end_ - 2 + 1) := Nat.fib_add_two
        _ = Nat.fib (r.end_ - 2) + Nat.fib (r.end_ - 1) := by
              rw [show r.end_ - 2 + 1 = r.end_ - 1 by omega]
      rw [show r.end_ - 1 - 1 = r.end_ - 2 by omega]
      omega
    · show r.back_current = Nat.fib (r.end_ - 1)
      exact hbc

/-- A freshly constructed range satisfies the invariant. -/
lemma FibRange_new_inv (s e : Nat) : FibRangeInv (FibRange.new s e) := by
  unfold FibRange.new
  by_cases h : s ≥ e
  · rw [if_pos h]
    intro hlt
    simp at hlt
  · rw [if_neg h]
    have he : e > 0 := by omega
    intro _
    simp [fib_pair_spec, if_pos he, show e - 1 + 1 = e by omega]

/-- Field values of a freshly constructed nonempty range. -/
lemma FibRange_new_fields (s e : Nat) (h : s < e) :
    (FibRange.new s e).position = s ∧ (FibRange.new s e).end_ = e := by
  unfold FibRange.new
  rw [if_neg (Nat.not_le.mpr h)]
  exact ⟨rfl, rfl⟩

/-- Forward collection of a live range lists `F` over the remaining index
range. -/
lemma collectFuel_spec :
    ∀ fuel (r : FibRange), FibRangeInv r → fuel = r.end_ - r.position →
      FibRange.collectFuel fuel r = (List.range' r.position fuel).map Nat.fib := by
  intro fuel
  induction fuel with
  | zero => intro r _ _; rfl
  | succ fuel ih =>
    intro r hinv hf
    have hlt : r.position < r.end_ := by omega
    obtain ⟨r2, hnext, hinv2, hpos, hend⟩ := FibRange_next_some r hinv hlt
    simp only [FibRange.collectFuel, hnext]
    rw [ih r2 hinv2 (by omega), hpos, List.range'_succ]
    simp

/-- Backward collection of a live range lists `F` over the remaining index
range, reversed. -/
lemma collectBackFuel_spec :
    ∀ fuel (r : FibRange), FibRangeInv r → fuel = r.end_ - r.position →
      FibRange.collectBackFuel fuel r =
        ((List.range' r.position fuel).map Nat.fib).reverse := by
  intro fuel
  induction fuel with
  | zero => intro r _ _; rfl
  | succ fuel ih =>
    intro r hinv hf
    have hlt : r.position < r.end_ := by omega
    obtain ⟨r2, hnext, hinv2, hpos, hend⟩ := FibRange_next_back_some r hinv hlt
    simp only [FibRange.collectBackFuel, hnext]
    rw [ih r2 hinv2 (by omega), hpos, List.range'_1_concat, List.map_append]
    simp only [List.map_cons, List.map_nil]
    rw [List.reverse_concat, show r.position + fuel = r.end_ - 1 by omega]

/-- `collect` on a fresh range is the `F` image of `[start, end)`. -/
lemma collect_new_spec (s e : Nat) :
    FibRange.collect (FibRange.new s e) = (List.range' s (e - s)).map Nat.fib := by
  by_cases h : s < e
  · have hf := FibRange_new_fields s e h
    unfold FibRange.collect
    rw [collectFuel_spec _ _ (FibRange_new_inv s e) rfl, hf.1, hf.2]
  · have h2 : FibRange.new s e = ⟨0, 0, 0, 0, 0, 0⟩ := by
      unfold FibRange.new
      rw [if_pos (by omega)]
    rw [h2, show e - s = 0 by omega]
    rfl

/-- `collectBack` on a fresh range is the reversed `F` image of
`[start, end)`. -/
lemma collectBack_new_spec (s e : Nat) :
    FibRange.collectBack (FibRange.new s e) =
      ((List.range' s (e - s)).map Nat.fib).reverse := by
  by_cases h : s < e
  · have hf := FibRange_new_fields s e h
    unfold FibRange.collectBack
    rw [collectBackFuel_spec _ _ (FibRange_new_inv s e) rfl, hf.1, hf.2]
  · have h2 : FibRange.new s e = ⟨0, 0, 0, 0, 0, 0⟩ := by
      unfold FibRange.new
      rw [if_pos (by omega)]
    rw [h2, show e - s = 0 by omega]
    rfl

/-- C5: `FibRange(start, end)` is empty iff `start ≥ end`; under any
interleaving of `next` and `next_back` each forward step yields `F` at the
front index and each backward step `F` at the back index until the ends meet,
after which both yield none; `fib_range(10, 15)` collects to
`[55, 89, 144, 233, 377]` forward and `[377, 233, 144, 89, 55]` in reverse. -/
theorem C5_fib_range (s e : Nat) :
    ((FibRange.new s e).next = none ↔ e ≤ s) ∧
    ((FibRange.new s e).next_back = none ↔ e ≤ s) ∧
    FibRangeInv (FibRange.new s e) ∧
    (∀ r : FibRange, FibRangeInv r → r.position < r.end_ →
      ∃ r2, r.next = some (Nat.fib r.position, r2) ∧ FibRangeInv r2 ∧
        r2.position = r.position + 1 ∧ r2.end_ = r.end_) ∧
    (∀ r : FibRange, FibRangeInv r → r.position < r.end_ →
      ∃ r2, r.next_back = some (Nat.fib (r.end_ - 1), r2) ∧ FibRangeInv r2 ∧
        r2.position = r.position ∧ r2.end_ = r.end_ - 1) ∧
    (∀ r : FibRange, r.end_ ≤ r.position → r.next = none ∧ r.next_back = none) ∧
    FibRange.collect (FibRange.new 10 15) = [55, 89, 144, 233, 377] ∧
    FibRange.collectBack (FibRange.new 10 15) = [377, 233, 144, 89, 55] := by
  have hsent : e ≤ s → FibRange.new s e = ⟨0, 0, 0, 0, 0, 0⟩ := by
    intro h
    unfold FibRange.new
    rw [if_pos h]
  refine ⟨?_, ?_, FibRange_new_inv s e, FibRange_next_some, FibRange_next_back_some,
    fun r h => ⟨FibRange_next_none r h, FibRange_next_back_none r h⟩, by decide, by decide⟩
  · constructor
    · intro h
      by_contra hn
      have hlt : s < e := by omega
      have hf := FibRange_new_fields s e hlt
      obtain ⟨r2, hnext, -, -, -⟩ :=
        FibRange_next_some _ (FibRange_new_inv s e) (by rw [hf.1, hf.2]; exact hlt)
      rw [hnext] at h
      simp at h
    · intro h
      rw [hsent h]
      rfl
  · constructor
    · intro h
      by_contra hn
      have hlt : s < e := by omega
      have hf := FibRange_new_fields s e hlt
      obtain ⟨r2, hnext, -, -, -⟩ :=
        FibRange_next_back_some _ (FibRange_new_inv s e) (by rw [hf.1, hf.2]; exact hlt)
      rw [hnext] at h
      simp at h
    · intro h
      rw [hsent h]
      rfl

theorem C5_witness :
    FibRange.collect (FibRange.new 10 15) = [55, 89, 144, 233, 377] ∧
      FibRange.collectBack (FibRange.new 10 15) = [377, 233, 144, 89, 55] ∧
      ((FibRange.new 100 50).next = none ↔ (50 : Nat) ≤ 100) :=
  ⟨(C5_fib_range 10 15).2.2.2.2.2.2.1, (C5_fib_range 10 15).2.2.2.2.2.2.2,
    (C5_fib_range 100 50).1⟩

/-- Any valid split tree collects the same list as the sequential range. -/
lemma splitCollect_spec :
    ∀ tr s e, ValidSplit tr (e - s) →
      splitCollect tr s e = (List.range' s (e - s)).map Nat.fib := by
  intro tr
  induction tr with
  | leaf => intro s e _; exact collect_new_spec s e
  | node k l r ihl ihr =>
    intro s e hv
    obtain ⟨hk, hvl, hvr⟩ := hv
    have e1 : s + k - s = k := by omega
    have e2 : e - (s + k) = e - s - k := by omega
    simp only [splitCollect]
    rw [ihl s (s + k) (by rw [e1]; exact hvl), ihr (s + k) e (by rw [e2]; exact hvr)]
    rw [e1, e2, ← List.map_append, List.range'_append_1,
      show e - s - k + k = e - s by omega]

/-- C6: for every recursive split of the producer at intermediate indices, the
index-preserving parallel collection equals the sequential sequence
`[F(start), …, F(end−1)]`, and is empty when `start ≥ end`. -/
theorem C6_parallel_range (s e c : Nat) :
    (∀ tr, ValidSplit tr (e - s) →
      splitCollect tr s e = (List.range' s (e - s)).map Nat.fib) ∧
    fib_range_parallel s e c = (List.range' s (e - s)).map Nat.fib ∧
    (e ≤ s → fib_range_parallel s e c = []) := by
  refine ⟨fun tr hv => splitCollect_spec tr s e hv, ?_, ?_⟩
  · unfold fib_range_parallel
    by_cases h : s ≥ e
    · rw [if_pos h, show e - s = 0 by omega]
      rfl
    · rw [if_neg h]
      exact collect_new_spec s e
  · intro h
    unfold fib_range_parallel
    rw [if_pos h]

theorem C6_witness :
    ValidSplit (SplitTree.node 2 SplitTree.leaf SplitTree.leaf) (15 - 10) ∧
      splitCollect (SplitTree.node 2 SplitTree.leaf SplitTree.leaf) 10 15 =
        (List.range' 10 (15 - 10)).map Nat.fib :=
  ⟨by decide, (C6_parallel_range 10 15 0).1 _ (by decide)⟩

/-- C9: every doubling-loop state reached by `fib_pair`, `fibonacci_parallel`
and `fibonacci_fft` is a consecutive Fibonacci pair `(F(k), F(k+1))`, so
`a ≤ b` and the subtraction `2b − a` never underflows; likewise a live
`FibRange` always has `back_current ≤ back_next`, so the reverse-step
subtraction never underflows before the emptiness check stops iteration. -/
theorem C9_subtraction_safety :
    (∀ n j : Nat, 1 ≤ n → j ≤ n.log2 →
      (∃ k, fdStateAfter n j = (Nat.fib k, Nat.fib (k + 1))) ∧
      (fdStateAfter n j).1 ≤ (fdStateAfter n j).2) ∧
    (∀ t n j : Nat, j ≤ n.log2 + 1 →
      (∃ k, parStateAfter t n j = (Nat.fib k, Nat.fib (k + 1))) ∧
      (parStateAfter t n j).1 ≤ (parStateAfter t n j).2) ∧
    (∀ n j : Nat, j ≤ n.log2 + 1 →
      (∃ k, fftStateAfter n j = (Nat.fib k, Nat.fib (k + 1))) ∧
      (fftStateAfter n j).1 ≤ (fftStateAfter n j).2) ∧
    (∀ r : FibRange, FibRangeInv r → r.position < r.end_ →
      r.back_current ≤ r.back_next) := by
  refine ⟨?_, ?_, ?_, ?_⟩
  · intro n j hn hj
    have h := fdStateAfter_spec n hn j hj
    refine ⟨⟨n >>> (n.log2 - j), h⟩, ?_⟩
    rw [h]
    exact Nat.fib_le_fib_succ
  · intro t n j hj
    have h := parStateAfter_fib t n j hj
    refine ⟨⟨n >>> (n.log2 + 1 - j), h⟩, ?_⟩
    rw [h]
    exact Nat.fib_le_fib_succ
  · intro n j hj
    have h := fftStateAfter_fib n j hj
    refine ⟨⟨n >>> (n.log2 + 1 - j), h⟩, ?_⟩
    rw [h]
    exact Nat.fib_le_fib_succ
  · intro r hinv h
    obtain ⟨-, -, hbc, hbn⟩ := hinv h
    rw [hbc, hbn]
    calc Nat.fib (r.end_ - 1) ≤ Nat.fib (r.end_ - 1 + 1) := Nat.fib_le_fib_succ
    _ = Nat.fib r.end_ := by rw [show r.end_ - 1 + 1 = r.end_ by omega]

theorem C9_witness :
    (1 : Nat) ≤ 300 ∧
      (∃ k, fdStateAfter 300 0 = (Nat.fib k, Nat.fib (k + 1))) ∧
      FibRangeInv (FibRange.new 10 15) ∧
      (FibRange.new 10 15).back_current ≤ (FibRange.new 10 15).back_next :=
  ⟨by decide, (C9_subtraction_safety.1 300 0 (by decide) (Nat.zero_le _)).1,
    by decide,
    C9_subtraction_safety.2.2.2 (FibRange.new 10 15) (by decide) (by decide)⟩

/-! ### Digit-conversion round trip -/

/-- Bitwise OR with a disjoint high part is addition. -/
lemma lor_mul_two_pow {a c k : Nat} (h : a < 2 ^ k) :
    a ||| c * 2 ^ k = a + c * 2 ^ k := by
  apply Nat.eq_of_testBit_eq
  intro i
  rw [Nat.testBit_lor]
  by_cases hik : k ≤ i
  · have ha : a.testBit i = false :=
      Nat.testBit_lt_two_pow (lt_of_lt_of_le h (Nat.pow_le_pow_right (by omega) hik))
    rw [ha, Bool.false_or]
    have hsplit : (2 : Nat) ^ i = 2 ^ k * 2 ^ (i - k) := by
      rw [← pow_add]
      congr 1
      omega
    rw [Nat.testBit_to_div_mod, Nat.testBit_to_div_mod]
    have h1 : c * 2 ^ k / 2 ^ i = c / 2 ^ (i - k) := by
      rw [hsplit, ← Nat.div_div_eq_div_mul,
        Nat.mul_div_cancel c (Nat.two_pow_pos k)]
    have h2 : (a + c * 2 ^ k) / 2 ^ i = c / 2 ^ (i - k) := by
      rw [hsplit, ← Nat.div_div_eq_div_mul]
      rw [Nat.mul_comm c ((2 : Nat) ^ k), Nat.add_mul_div_left a c (Nat.two_pow_pos k),
        Nat.div_eq_of_lt h, Nat.zero_add]
    rw [h1, h2]
  · have hc : (c * 2 ^ k).testBit i = false := by
      rw [Nat.testBit_to_div_mod]
      have hsplit : c * 2 ^ k / 2 ^ i = c * 2 ^ (k - i) := by
        rw [show (2 : Nat) ^ k = 2 ^ (k - i) * 2 ^ i by
              rw [← pow_add]
              congr 1
              omega,
          ← Nat.mul_assoc]
        exact Nat.mul_div_cancel (c * 2 ^ (k - i)) (Nat.two_pow_pos i)
      have heven : c * 2 ^ (k - i) % 2 = 0 := by
        rw [show (2 : Nat) ^ (k - i) = 2 ^ (k - i - 1) * 2 by
              rw [← pow_succ]
              congr 1
              omega,
          ← Nat.mul_assoc]
        exact Nat.mul_mod_left _ 2
      rw [hsplit, heven]
      rfl
    rw [hc, Bool.or_false]
    rw [Nat.testBit_to_div_mod, Nat.testBit_to_div_mod]
    have hstep : (a + c * 2 ^ k) / 2 ^ i % 2 = a / 2 ^ i % 2 := by
      rw [show c * 2 ^ k = c * 2 ^ (k - i) * 2 ^ i by
            rw [Nat.mul_assoc, ← pow_add]
            congr 2
            omega]
      rw [Nat.add_mul_div_right a _ (Nat.two_pow_pos i)]
      rw [show c * 2 ^ (k - i) = c * 2 ^ (k - i - 1) * 2 by
            rw [Nat.mul_assoc, ← pow_succ]
            congr 2
            omega]
      exact Nat.add_mul_mod_self_right _ _ _
    rw [hstep]

/-- Appending one digit adds its value at the top position. -/
lemma ofBase_append_singleton (M : Nat) (l : List Nat) (x : Nat) :
    ofBase M (l ++ [x]) = ofBase M l + x * M ^ l.length := by
  induction l with
  | nil => simp [ofBase]
  | cons d rest ih =>
    show d + M * ofBase M (rest ++ [x]) = d + M * ofBase M rest + x * M ^ (rest.length + 1)
    rw [ih]
    ring

lemma fromLeBytes_eq_ofBase : ∀ l, fromLeBytes l = ofBase 256 l
  | [] => rfl
  | b :: rest => by
    simp only [fromLeBytes, ofBase, fromLeBytes_eq_ofBase rest]

/-- Byte export produces bytes. -/
lemma toLeBytes_lt (n : Nat) : ∀ x ∈ toLeBytes n, x < 256 := by
  induction n using Nat.strong_induction_on with
  | _ n ih =>
    rw [toLeBytes]
    by_cases h0 : n = 0
    · rw [dif_pos h0]
      intro x hx
      simp at hx
    · rw [dif_neg h0]
      intro x hx
      rcases List.mem_cons.mp hx with hx1 | hx2
      · rw [hx1]
        exact Nat.mod_lt n (by omega)
      · exact ih (n / 256) (Nat.div_lt_self (by omega) (by omega)) x hx2

/-- Byte export is value-faithful. -/
lemma ofBase_toLeBytes (n : Nat) : ofBase 256 (toLeBytes n) = n := by
  induction n using Nat.strong_induction_on with
  | _ n ih =>
    rw [toLeBytes]
    by_cases h0 : n = 0
    · rw [dif_pos h0, h0]
      rfl
    · rw [dif_neg h0]
      simp only [ofBase]
      rw [ih (n / 256) (Nat.div_lt_self (by omega) (by omega))]
      omega

/-- The digit-drain loop preserves the combined value, keeps the accumulator
below its bit budget, leaves fewer than `base_bits` pending bits, conserves the
bit budget, and emits only in-range digits. -/
lemma drainDigits_spec (b : Nat) (hb : 0 < b) (hb32 : b ≤ 32) :
    ∀ bc, ∀ bits acc, bits < 2 ^ bc →
      ∃ bits2 bc2 acc2,
        drainDigits b bits bc acc = (bits2, bc2, acc2) ∧
        ofBase (2 ^ b) acc2 + bits2 * (2 ^ b) ^ acc2.length =
          ofBase (2 ^ b) acc + bits * (2 ^ b) ^ acc.length ∧
        bits2 < 2 ^ bc2 ∧ bc2 < b ∧
        b * acc2.length + bc2 = b * acc.length + bc ∧
        (∀ x ∈ acc2, x ∈ acc ∨ x < 2 ^ b) := by
  intro bc
  induction bc using Nat.strong_induction_on with
  | _ bc ih =>
    intro bits acc hlt
    rw [drainDigits]
    by_cases h : 0 < b ∧ b ≤ bc
    · rw [dif_pos h]
      have hmask : (bits &&& ((1 <<< b) - 1)) % 2 ^ 32 = bits % 2 ^ b := by
        rw [Nat.one_shiftLeft, Nat.and_pow_two_sub_one_eq_mod]
        exact Nat.mod_eq_of_lt
          (lt_of_lt_of_le (Nat.mod_lt bits (Nat.two_pow_pos b))
            (Nat.pow_le_pow_right (by omega) hb32))
      have hlt2 : bits >>> b < 2 ^ (bc - b) := by
        rw [Nat.shiftRight_eq_div_pow]
        apply Nat.div_lt_of_lt_mul
        rw [← pow_add, show b + (bc - b) = bc by omega]
        exact hlt
      obtain ⟨bits2, bc2, acc2, heq, hval, hb2, hbc2, hbud, hdig⟩ :=
        ih (bc - b) (by omega) (bits >>> b)
          (acc ++ [(bits &&& ((1 <<< b) - 1)) % 2 ^ 32]) hlt2
      refine ⟨bits2, bc2, acc2, heq, ?_, hb2, hbc2, ?_, ?_⟩
      · rw [hval, hmask, ofBase_append_singleton, Nat.shiftRight_eq_div_pow,
          List.length_append, List.length_singleton]
        conv_rhs => rw [show bits = bits % 2 ^ b + 2 ^ b * (bits / 2 ^ b) from
          (Nat.mod_add_div bits (2 ^ b)).symm]
        ring
      · rw [List.length_append, List.length_singleton, Nat.mul_add, Nat.mul_one] at hbud
        omega
      · intro x hx
        rcases hdig x hx with hmem | hsmall
        · rcases List.mem_append.mp hmem with h1 | h2
          · exact Or.inl h1
          · right
            rw [List.mem_singleton.mp h2, hmask]
            exact Nat.mod_lt bits (Nat.two_pow_pos b)
        · exact Or.inr hsmall
    · rw [dif_neg h]
      exact ⟨bits, bc, acc, rfl, rfl, hlt, by omega, rfl, fun x hx => Or.inl hx⟩

/-- The byte-drain loop of the inverse conversion, with the same invariants in
base 256. -/
lemma drainBytes_spec :
    ∀ bc, ∀ bits acc, bits < 2 ^ bc →
      ∃ bits2 bc2 acc2,
        drainBytes bits bc acc = (bits2, bc2, acc2) ∧
        ofBase 256 acc2 + bits2 * 256 ^ acc2.length =
          ofBase 256 acc + bits * 256 ^ acc.length ∧
        bits2 < 2 ^ bc2 ∧ bc2 < 8 ∧
        8 * acc2.length + bc2 = 8 * acc.length + bc := by
  intro bc
  induction bc using Nat.strong_induction_on with
  | _ bc ih =>
    intro bits acc hlt
    rw [drainBytes]
    by_cases h : 8 ≤ bc
    · rw [dif_pos h]
      have hmask : bits &&& 255 = bits % 256 := by
        have h255 : (255 : Nat) = 2 ^ 8 - 1 := by norm_num
        have h256 : (256 : Nat) = 2 ^ 8 := by norm_num
        rw [h255, h256, Nat.and_pow_two_sub_one_eq_mod]
      have hlt2 : bits >>> 8 < 2 ^ (bc - 8) := by
        rw [Nat.shiftRight_eq_div_pow]
        apply Nat.div_lt_of_lt_mul
        rw [← pow_add, show 8 + (bc - 8) = bc by omega]
        exact hlt
      obtain ⟨bits2, bc2, acc2, heq, hval, hb2, hbc2, hbud⟩ :=
        ih (bc - 8) (by omega) (bits >>> 8) (acc ++ [bits &&& 255]) hlt2
      refine ⟨bits2, bc2, acc2, heq, ?_, hb2, hbc2, ?_⟩
      · rw [hval, hmask, ofBase_append_singleton, Nat.shiftRight_eq_div_pow,
          List.length_append, List.length_singleton]
        have h256 : (256 : Nat) = 2 ^ 8 := by norm_num
        conv_rhs => rw [show bits = bits % 256 + 256 * (bits / 256) from
          (Nat.mod_add_div bits 256).symm]
        rw [h256]
        ring
      · rw [List.length_append, List.length_singleton] at hbud
        omega
    · rw [dif_neg h]
      exact ⟨bits, bc, acc, rfl, rfl, hlt, by omega, rfl⟩

/-- The byte loop of the forward conversion accumulates the byte stream value
into the digit stream value. -/
lemma pushBytes_spec (b : Nat) (hb : 0 < b) (hb32 : b ≤ 32) :
    ∀ bytes bits bc acc, bits < 2 ^ bc → bc < b → (∀ x ∈ bytes, x < 256) →
      (∀ x ∈ acc, x < 2 ^ b) →
      ∃ bits2 bc2 acc2,
        pushBytes b bytes bits bc acc = (bits2, bc2, acc2) ∧
        ofBase (2 ^ b) acc2 + bits2 * (2 ^ b) ^ acc2.length =
          ofBase (2 ^ b) acc + bits * (2 ^ b) ^ acc.length +
            ofBase 256 bytes * 2 ^ (b * acc.length + bc) ∧
        bits2 < 2 ^ bc2 ∧ bc2 < b ∧ (∀ x ∈ acc2, x < 2 ^ b) := by
  intro bytes
  induction bytes with
  | nil =>
    intro bits bc acc h1 h2 _ h4
    exact ⟨bits, bc, acc, rfl, by simp [ofBase], h1, h2, h4⟩
  | cons byte rest ih =>
    intro bits bc acc h1 h2 h3 h4
    have hby : byte < 256 := h3 byte (List.mem_cons_self _ _)
    have hsh : (byte <<< bc) % U64_MOD = byte * 2 ^ bc := by
      rw [Nat.shiftLeft_eq]
      apply Nat.mod_eq_of_lt
      have e1 : (2 : Nat) ^ bc ≤ 2 ^ 32 := Nat.pow_le_pow_right (by omega) (by omega)
      have e2 : byte * 2 ^ bc ≤ 255 * 2 ^ 32 := Nat.mul_le_mul (by omega) e1
      have e3 : (255 : Nat) * 2 ^ 32 < U64_MOD := by decide
      omega
    have hb1 : bits ||| ((byte <<< bc) % U64_MOD) = bits + byte * 2 ^ bc := by
      rw [hsh]
      exact lor_mul_two_pow h1
    have hbits1 : bits + byte * 2 ^ bc < 2 ^ (bc + 8) := by
      have e1 : byte * 2 ^ bc ≤ 255 * 2 ^ bc := Nat.mul_le_mul (by omega) (Nat.le_refl _)
      have hp : (2 : Nat) ^ (bc + 8) = 2 ^ bc * 256 := by
        rw [pow_add]
        norm_num
      omega
    obtain ⟨bits2, bc2, acc2, heq, hval, hb2, hbc2, hbud, hdig⟩ :=
      drainDigits_spec b hb hb32 (bc + 8) (bits + byte * 2 ^ bc) acc hbits1
    have hacc2 : ∀ x ∈ acc2, x < 2 ^ b := fun x hx => (hdig x hx).elim (h4 x) id
    obtain ⟨bits3, bc3, acc3, heq3, hval3, hb3, hbc3, hdig3⟩ :=
      ih bits2 bc2 acc2 hb2 hbc2 (fun x hx => h3 x (List.mem_cons_of_mem _ hx)) hacc2
    have hstep : pushBytes b (byte :: rest) bits bc acc = pushBytes b rest bits2 bc2 acc2 := by
      simp only [pushBytes]
      rw [hb1, heq]
    refine ⟨bits3, bc3, acc3, hstep.trans heq3, ?_, hb3, hbc3, hdig3⟩
    have E1 : (2 : Nat) ^ (b * acc.length + bc) = (2 ^ b) ^ acc.length * 2 ^ bc := by
      rw [pow_add, pow_mul]
    have E2 : (2 : Nat) ^ (b * acc2.length + bc2) =
        (2 ^ b) ^ acc.length * 2 ^ bc * 256 := by
      rw [hbud, pow_add, pow_add, pow_mul]
      norm_num [Nat.mul_assoc]
    rw [hval3, hval, E2, E1]
    simp only [ofBase]
    ring

/-- The digit loop of the inverse conversion accumulates the digit stream value
into the byte stream value. -/
lemma pushDigits_spec (b : Nat) (hb : 0 < b) (hb32 : b ≤ 32) :
    ∀ ds bits bc acc, bits < 2 ^ bc → bc < 8 → (∀ x ∈ ds, x < 2 ^ b) →
      ∃ bits2 bc2 acc2,
        pushDigits b ds bits bc acc = (bits2, bc2, acc2) ∧
        ofBase 256 acc2 + bits2 * 256 ^ acc2.length =
          ofBase 256 acc + bits * 256 ^ acc.length +
            ofBase (2 ^ b) ds * 2 ^ (8 * acc.length + bc) ∧
        bits2 < 2 ^ bc2 ∧ bc2 < 8 := by
  intro ds
  induction ds with
  | nil =>
    intro bits bc acc h1 h2 _
    exact ⟨bits, bc, acc, rfl, by simp [ofBase], h1, h2⟩
  | cons d rest ih =>
    intro bits bc acc h1 h2 h3
    have hd : d < 2 ^ b := h3 d (List.mem_cons_self _ _)
    have hsh : (d <<< bc) % U64_MOD = d * 2 ^ bc := by
      rw [Nat.shiftLeft_eq]
      apply Nat.mod_eq_of_lt
      have e0 : d ≤ 2 ^ 32 :=
        le_of_lt (lt_of_lt_of_le hd (Nat.pow_le_pow_right (by omega) hb32))
      have e1 : (2 : Nat) ^ bc ≤ 2 ^ 8 := Nat.pow_le_pow_right (by omega) (by omega)
      have e2 : d * 2 ^ bc ≤ 2 ^ 32 * 2 ^ 8 := Nat.mul_le_mul e0 e1
      have e3 : (2 : Nat) ^ 32 * 2 ^ 8 < U64_MOD := by decide
      omega
    have hb1 : bits ||| ((d <<< bc) % U64_MOD) = bits + d * 2 ^ bc := by
      rw [hsh]
      exact lor_mul_two_pow h1
    have hbits1 : bits + d * 2 ^ bc < 2 ^ (bc + b) := by
      have h5 : (d + 1) * 2 ^ bc ≤ 2 ^ b * 2 ^ bc := Nat.mul_le_mul (by omega) (Nat.le_refl _)
      have h6 : d * 2 ^ bc + 2 ^ bc = (d + 1) * 2 ^ bc := by ring
      have hp : (2 : Nat) ^ (bc + b) = 2 ^ b * 2 ^ bc := by
        rw [pow_add, Nat.mul_comm]
      omega
    obtain ⟨bits2, bc2, acc2, heq, hval, hb2, hbc2, hbud⟩ :=
      drainBytes_spec (bc + b) (bits + d * 2 ^ bc) acc hbits1
    obtain ⟨bits3, bc3, acc3, heq3, hval3, hb3, hbc3⟩ :=
      ih bits2 bc2 acc2 hb2 hbc2 (fun x hx => h3 x (List.mem_cons_of_mem _ hx))
    have hstep : pushDigits b (d :: rest) bits bc acc = pushDigits b rest bits2 bc2 acc2 := by
      simp only [pushDigits]
      rw [hb1, heq]
    refine ⟨bits3, bc3, acc3, hstep.trans heq3, ?_, hb3, hbc3⟩
    have E1 : (2 : Nat) ^ (8 * acc.length + bc) = 256 ^ acc.length * 2 ^ bc := by
      rw [pow_add, pow_mul]
      norm_num
    have E2 : (2 : Nat) ^ (8 * acc2.length + bc2) =
        256 ^ acc.length * 2 ^ bc * 2 ^ b := by
      rw [hbud, pow_add, pow_add, pow_mul]
      norm_num [Nat.mul_assoc]
    rw [hval3, hval, E2, E1]
    simp only [ofBase]
    ring

/-- Trimming high-order zero digits preserves the value and introduces no new
digits. -/
lemma trimZeros_spec (M : Nat) :
    ∀ k (l : List Nat), l.length ≤ k →
      ofBase M (trimZeros l) = ofBase M l ∧ (∀ x ∈ trimZeros l, x ∈ l) := by
  intro k
  induction k with
  | zero =>
    intro l hl
    have h0 : l = [] := List.eq_nil_of_length_eq_zero (by omega)
    subst h0
    rw [trimZeros, dif_neg (by simp)]
    exact ⟨rfl, fun x hx => hx⟩
  | succ k ih =>
    intro l hl
    rw [trimZeros]
    by_cases h : 1 < l.length ∧ l.getLast? = some 0
    · rw [dif_pos h]
      have hlen : l.dropLast.length ≤ k := by
        rw [List.length_dropLast]
        omega
      obtain ⟨ih1, ih2⟩ := ih l.dropLast hlen
      have hne : l ≠ [] := by
        intro he
        rw [he] at h
        simp at h
      have hgl : l.getLast hne = 0 := by
        have h2 := List.getLast?_eq_getLast l hne
        rw [h.2] at h2
        exact (Option.some.inj h2).symm
      have hl2 : l.dropLast ++ [0] = l := by
        conv_rhs => rw [← List.dropLast_append_getLast hne]
        rw [hgl]
      refine ⟨?_, ?_⟩
      · rw [ih1]
        conv_rhs => rw [← hl2]
        rw [ofBase_append_singleton]
        simp
      · intro x hx
        have hmem := ih2 x hx
        rw [← hl2]
        exact List.mem_append.mpr (Or.inl hmem)
    · rw [dif_neg h]
      exact ⟨rfl, fun x hx => hx⟩

lemma trimZeros_single (x : Nat) : trimZeros [x] = [x] := by
  rw [trimZeros]
  simp

/-- The forward conversion is value-faithful on any byte stream and emits only
digits below `2^base_bits`. -/
lemma ubig_to_digits_sequential_spec (b : Nat) (hb : 0 < b) (hb32 : b ≤ 32)
    (bytes : List Nat) (hbytes : ∀ x ∈ bytes, x < 256) :
    ofBase (2 ^ b) (ubig_to_digits_sequential bytes b) = ofBase 256 bytes ∧
    (∀ x ∈ ubig_to_digits_sequential bytes b, x < 2 ^ b) := by
  obtain ⟨bits2, bc2, acc2, heq, hval, hb2, hbc2, hdig⟩ :=
    pushBytes_spec b hb hb32 bytes 0 0 [] (by norm_num) hb hbytes (by simp)
  have hval0 : ofBase (2 ^ b) acc2 + bits2 * (2 ^ b) ^ acc2.length =
      ofBase 256 bytes := by
    simpa [ofBase] using hval
  have hrw : ubig_to_digits_sequential bytes b =
      trimZeros (if 0 < bc2 ∨ acc2 = [] then acc2 ++ [bits2 % 2 ^ 32] else acc2) := by
    unfold ubig_to_digits_sequential
    rw [heq]
  have hmod : bits2 % 2 ^ 32 = bits2 :=
    Nat.mod_eq_of_lt
      (lt_of_lt_of_le hb2 (Nat.pow_le_pow_right (by omega) (by omega)))
  have hb2b : bits2 < 2 ^ b :=
    lt_of_lt_of_le hb2 (Nat.pow_le_pow_right (by omega) (by omega))
  have hresval :
      ofBase (2 ^ b) (if 0 < bc2 ∨ acc2 = [] then acc2 ++ [bits2 % 2 ^ 32] else acc2) =
        ofBase 256 bytes := by
    by_cases hc : 0 < bc2 ∨ acc2 = []
    · rw [if_pos hc, ofBase_append_singleton, hmod, hval0]
    · rw [if_neg hc]
      have hbc0 : bc2 = 0 := by omega
      have hbit0 : bits2 = 0 := by
        rw [hbc0] at hb2
        simpa using hb2
      rw [← hval0, hbit0]
      simp
  have hresdig :
      ∀ x ∈ (if 0 < bc2 ∨ acc2 = [] then acc2 ++ [bits2 % 2 ^ 32] else acc2),
        x < 2 ^ b := by
    by_cases hc : 0 < bc2 ∨ acc2 = []
    · rw [if_pos hc]
      intro x hx
      rcases List.mem_append.mp hx with h1 | h2
      · exact hdig x h1
      · rw [List.mem_singleton.mp h2, hmod]
        exact hb2b
    · rw [if_neg hc]
      exact hdig
  obtain ⟨ht1, ht2⟩ := trimZeros_spec (2 ^ b) _ _ (Nat.le_refl _)
  rw [hrw]
  exact ⟨by rw [ht1, hresval], fun x hx => hresdig x (ht2 x hx)⟩

/-- `ubig_to_digits` converts `x` to base-`2^base_bits` digits faithfully. -/
lemma ubig_to_digits_spec (b : Nat) (hb : 0 < b) (hb32 : b ≤ 32) (n : Nat) :
    ofBase (2 ^ b) (ubig_to_digits n b) = n ∧
    (∀ x ∈ ubig_to_digits n b, x < 2 ^ b) := by
  unfold ubig_to_digits
  obtain ⟨h1, h2⟩ :=
    ubig_to_digits_sequential_spec b hb hb32 (toLeBytes n) (toLeBytes_lt n)
  exact ⟨by rw [h1, ofBase_toLeBytes], h2⟩

/-- `digits_to_ubig` repacks any in-range digit vector to its value. -/
lemma digits_to_ubig_spec (b : Nat) (hb : 0 < b) (hb32 : b ≤ 32) (ds : List Nat)
    (hds : ∀ x ∈ ds, x < 2 ^ b) :
    digits_to_ubig ds b = ofBase (2 ^ b) ds := by
  unfold digits_to_ubig
  by_cases hnil : ds = []
  · rw [if_pos hnil, hnil]
    rfl
  · rw [if_neg hnil]
    obtain ⟨bits2, bc2, acc2, heq, hval, hb2, hbc2⟩ :=
      pushDigits_spec b hb hb32 ds 0 0 [] (by norm_num) (by omega) hds
    have hval0 : ofBase 256 acc2 + bits2 * 256 ^ acc2.length = ofBase (2 ^ b) ds := by
      simpa [ofBase] using hval
    have hrw : digits_to_ubig_sequential ds b =
        fromLeBytes (if 0 < bc2 then acc2 ++ [bits2 % 256] else acc2) := by
      unfold digits_to_ubig_sequential
      rw [heq]
    rw [hrw, fromLeBytes_eq_ofBase]
    by_cases hc : 0 < bc2
    · rw [if_pos hc, ofBase_append_singleton]
      have hmod : bits2 % 256 = bits2 := by
        have : (2 : Nat) ^ bc2 ≤ 2 ^ 8 := Nat.pow_le_pow_right (by omega) (by omega)
        have h256 : (2 : Nat) ^ 8 = 256 := by norm_num
        exact Nat.mod_eq_of_lt (by omega)
      rw [hmod, hval0]
    · rw [if_neg hc]
      have hbit0 : bits2 = 0 := by
        have hbc0 : bc2 = 0 := by omega
        rw [hbc0] at hb2
        simpa using hb2
      rw [← hval0, hbit0]
      simp

lemma ubig_to_digits_zero (b : Nat) : ubig_to_digits 0 b = [0] := by
  have h0 : toLeBytes 0 = [] := by
    rw [toLeBytes]
    simp
  unfold ubig_to_digits ubig_to_digits_sequential
  rw [h0]
  show trimZeros ([] ++ [0 % 2 ^ 32]) = [0]
  have : (0 : Nat) % 2 ^ 32 = 0 := Nat.zero_mod _
  rw [this, List.nil_append]
  exact trimZeros_single 0

/-- C10: for every `FibNumber x` and each base used by the FFT path (13 by
default, 12 for massive operands), converting `x` with `ubig_to_digits` and
repacking with `digits_to_ubig` returns exactly `x`; the digit vector of 0 is
`[0]`. -/
theorem C10_digit_round_trip :
    ∀ (x base_bits : Nat), base_bits = BASE_BITS_DEFAULT ∨ base_bits = BASE_BITS_MASSIVE →
      digits_to_ubig (ubig_to_digits x base_bits) base_bits = x ∧
      ubig_to_digits 0 base_bits = [0] := by
  intro x b hb
  have hb0 : 0 < b := by rcases hb with h | h <;> (rw [h]; decide)
  have hb32 : b ≤ 32 := by rcases hb with h | h <;> (rw [h]; decide)
  obtain ⟨hval, hdig⟩ := ubig_to_digits_spec b hb0 hb32 x
  exact ⟨by rw [digits_to_ubig_spec b hb0 hb32 _ hdig, hval], ubig_to_digits_zero b⟩

theorem C10_witness :
    ((13 : Nat) = BASE_BITS_DEFAULT ∨ (13 : Nat) = BASE_BITS_MASSIVE) ∧
      digits_to_ubig (ubig_to_digits 123456789 13) 13 = 123456789 ∧
      ubig_to_digits 0 13 = [0] :=
  ⟨by decide, (C10_digit_round_trip 123456789 13 (by decide)).1,
    (C10_digit_round_trip 123456789 13 (by decide)).2⟩
